import Mathlib

/-!
Shallow embedding of the heredity Bayesian-network inference program
(heredity.py).  Probabilities are modelled as exact rationals.  Python
dictionaries keyed by person name become association lists in population
order; Python sets of names become lists of names with membership tested by
List.contains.  Python real division raises ZeroDivisionError on a zero
divisor, which the normalizer models with an Except error channel.
-/

namespace Heredity

/-- One individual as produced by load_data: a name, optional mother and
father names, and a tri-state trait observation. -/
structure Person where
  name : String
  mother : Option String
  father : Option String
  trait : Option Bool
deriving DecidableEq, Repr

/-- PROBS gene: the prior gene-count distribution used for founders
(2 maps to 0.01, 1 maps to 0.03, 0 maps to 0.96). -/
def PROBS_gene (g : ℕ) : ℚ :=
  if g = 2 then 1/100 else if g = 1 then 3/100 else 96/100

/-- PROBS trait: the conditional trait distribution given the gene count. -/
def PROBS_trait (g : ℕ) (t : Bool) : ℚ :=
  if g = 2 then (if t then 65/100 else 35/100)
  else if g = 1 then (if t then 56/100 else 44/100)
  else (if t then 1/100 else 99/100)

/-- PROBS mutation: the fixed mutation rate 0.01. -/
def PROBS_mut : ℚ := 1/100

/-- Gene count assigned to a name by a hypothesis: 2 if the name is in
two_genes, else 1 if in one_gene, else 0 (the membership order mirrors
the source). -/
def genesOf (name : String) (one_gene two_genes : List String) : ℕ :=
  if two_genes.contains name then 2
  else if one_gene.contains name then 1
  else 0

/-- Gene count for an optional parent name.  In Python a None parent is
tested for set membership directly and is never a member, so it gets
count 0; a name absent from the sets also gets count 0. -/
def genesOfOpt (o : Option String) (one_gene two_genes : List String) : ℕ :=
  match o with
  | none => 0
  | some n => genesOf n one_gene two_genes

/-- get_gene_prob from the source: the probability that a parent with the
given gene count passes (is_mutation = false) or withholds
(is_mutation = true) the variant allele. -/
def getGeneProb (parentGenes : ℕ) (isMutation : Bool) : ℚ :=
  if parentGenes = 2 then (if !isMutation then 1 - PROBS_mut else PROBS_mut)
  else if parentGenes = 1 then 1/2
  else (if !isMutation then PROBS_mut else 1 - PROBS_mut)

/-- The gene-probability factor joint_probability computes for one person:
founders (both parents absent) use the PROBS gene prior; otherwise the
two per-parent transmission probabilities are combined according to the
child's assigned count. -/
def personGeneProb (person : Person) (one_gene two_genes : List String) : ℚ :=
  if person.mother = none ∧ person.father = none then
    PROBS_gene (genesOf person.name one_gene two_genes)
  else
    let mg := genesOfOpt person.mother one_gene two_genes
    let fg := genesOfOpt person.father one_gene two_genes
    let genes := genesOf person.name one_gene two_genes
    if genes = 2 then getGeneProb mg false * getGeneProb fg false
    else if genes = 1 then
      getGeneProb mg false * getGeneProb fg true +
        getGeneProb mg true * getGeneProb fg false
    else getGeneProb mg true * getGeneProb fg true

/-- joint_probability from the source: the product over the population of
each person's gene probability times their trait probability, accumulated
left to right starting from 1. -/
def jointProbability (people : List Person)
    (one_gene two_genes have_trait : List String) : ℚ :=
  people.foldl
    (fun acc person =>
      acc * (personGeneProb person one_gene two_genes *
        PROBS_trait (genesOf person.name one_gene two_genes)
          (have_trait.contains person.name)))
    1

/-- One person's accumulator record: three unnormalized gene weights and
two unnormalized trait weights. -/
structure PTable where
  gene0 : ℚ
  gene1 : ℚ
  gene2 : ℚ
  traitT : ℚ
  traitF : ℚ
deriving DecidableEq, Repr

/-- The all-zero accumulator record each person starts with. -/
def zeroTable : PTable := ⟨0, 0, 0, 0, 0⟩

/-- Add p to the gene slot selected by the count g. -/
def addGene (t : PTable) (g : ℕ) (p : ℚ) : PTable :=
  if g = 2 then { t with gene2 := t.gene2 + p }
  else if g = 1 then { t with gene1 := t.gene1 + p }
  else { t with gene0 := t.gene0 + p }

/-- Add p to the trait slot selected by the boolean b. -/
def addTrait (t : PTable) (b : Bool) (p : ℚ) : PTable :=
  if b then { t with traitT := t.traitT + p }
  else { t with traitF := t.traitF + p }

/-- Read a gene slot by count (counts other than 1 and 2 read slot 0). -/
def geneSlot (t : PTable) (g : ℕ) : ℚ :=
  if g = 2 then t.gene2 else if g = 1 then t.gene1 else t.gene0

/-- Read a trait slot by boolean. -/
def traitSlot (t : PTable) (b : Bool) : ℚ :=
  if b then t.traitT else t.traitF

/-- Sum of the three gene weights of one record. -/
def geneSum (t : PTable) : ℚ := t.gene0 + t.gene1 + t.gene2

/-- Sum of the two trait weights of one record. -/
def traitSum (t : PTable) : ℚ := t.traitT + t.traitF

/-- update from the source: for every person in the accumulator, add the
joint probability p to the gene slot matching that person's assigned gene
count and to the trait slot matching their assigned trait value. -/
def update (probs : List (String × PTable))
    (one_gene two_genes have_trait : List String) (p : ℚ) :
    List (String × PTable) :=
  probs.map fun e =>
    (e.1, addTrait (addGene e.2 (genesOf e.1 one_gene two_genes) p)
            (have_trait.contains e.1) p)

/-- The zero-initialized accumulator main builds before enumeration. -/
def initProbs (people : List Person) : List (String × PTable) :=
  people.map fun p => (p.name, zeroTable)

/-- powerset from the source: itertools.chain over r of combinations(s, r)
enumerates, for each size r from 0 to length, every size-r subset; with
distinct names this is exactly the collection of sublists grouped by
length. -/
def powerset (s : List String) : List (List String) :=
  (List.range (s.length + 1)).flatMap fun r => List.sublistsLen r s

/-- The evidence check in main: a trait-true subset is consistent when
every person with an observed trait is in the subset exactly when the
observation is true (the negation of fails_evidence). -/
def consistentTraits (people : List Person) (have_trait : List String) : Bool :=
  people.all fun q =>
    match q.trait with
    | some b => have_trait.contains q.name == b
    | none => true

/-- The hypothesis enumeration of main: every evidence-consistent
trait-true subset paired with every (one_gene, two_genes) partition, where
two_genes ranges over subsets of the names outside one_gene.  Triples are
ordered (one_gene, two_genes, have_trait). -/
def hypotheses (people : List Person) :
    List (List String × List String × List String) :=
  let names := people.map Person.name
  ((powerset names).filter (consistentTraits people)).flatMap fun ht =>
    (powerset names).flatMap fun og =>
      (powerset (names.filter fun n => !og.contains n)).map fun tg =>
        (og, tg, ht)

/-- One iteration of the accumulation loop in main: compute the joint
probability of a hypothesis and feed it to update. -/
def applyHyp (people : List Person) (probs : List (String × PTable))
    (h : List String × List String × List String) : List (String × PTable) :=
  update probs h.1 h.2.1 h.2.2 (jointProbability people h.1 h.2.1 h.2.2)

/-- The accumulator state after main's enumeration loop has processed
every evidence-consistent hypothesis. -/
def accumulate (people : List Person) : List (String × PTable) :=
  (hypotheses people).foldl (applyHyp people) (initProbs people)

/-- The joint probability of one enumerated hypothesis. -/
def hypMass (people : List Person)
    (h : List String × List String × List String) : ℚ :=
  jointProbability people h.1 h.2.1 h.2.2

/-- Total probability mass of all evidence-consistent hypotheses. -/
def totalMass (people : List Person) : ℚ :=
  ((hypotheses people).map (hypMass people)).sum

/-- normalize, per person: dividing by a zero total raises
ZeroDivisionError in Python, modelled as an error; otherwise every gene
weight is divided by the gene total and every trait weight by the trait
total. -/
def normalizePerson (e : String × PTable) : Except Unit (String × PTable) :=
  let gt := geneSum e.2
  let tt := traitSum e.2
  if gt = 0 then .error ()
  else if tt = 0 then .error ()
  else .ok (e.1, ⟨e.2.gene0 / gt, e.2.gene1 / gt, e.2.gene2 / gt,
                  e.2.traitT / tt, e.2.traitF / tt⟩)

/-- normalize from the source: process persons in order, stopping with the
error of the first person whose division fails. -/
def normalize (probs : List (String × PTable)) :
    Except Unit (List (String × PTable)) :=
  match probs with
  | [] => .ok []
  | e :: rest =>
    match normalizePerson e with
    | .error u => .error u
    | .ok r =>
      match normalize rest with
      | .error u => .error u
      | .ok rs => .ok (r :: rs)

/-- The full pipeline of main after loading: zero-initialize, enumerate
and accumulate every evidence-consistent hypothesis, then normalize. -/
def finalDistributions (people : List Person) :
    Except Unit (List (String × PTable)) :=
  normalize (accumulate people)

/-- The trait-field decoding in load_data: "1" is observed true, "0" is
observed false, and any other string becomes None (unobserved). -/
def parseTrait (s : String) : Option Bool :=
  if s = "1" then some true else if s = "0" then some false else none

/-- One row of load_data: an empty parent field becomes None (Python
falsy-or), and the trait field is decoded by the three-way test. -/
def loadRow (name mother father trait : String) : Person :=
  ⟨name,
   if mother = "" then none else some mother,
   if father = "" then none else some father,
   parseTrait trait⟩

/-- load_data over already-parsed CSV rows (name, mother, father, trait). -/
def load_data (rows : List (String × String × String × String)) :
    List Person :=
  rows.map fun r => loadRow r.1 r.2.1 r.2.2.1 r.2.2.2

/-- The per-parent transmission probability exactly as the specification
words it: a parent with 2 copies transmits with probability 1 - 0.01, a
parent with 1 copy with probability 0.5, a parent with 0 copies with
probability 0.01.  (Stated from the spec, for comparison with
getGeneProb.) -/
def specTransmit (g : ℕ) : ℚ :=
  if g = 2 then 1 - 1/100 else if g = 1 then 1/2 else 1/100

/-! Helper lemmas about the transmission model and the accumulator. -/

lemma getGeneProb_false_eq (g : ℕ) : getGeneProb g false = specTransmit g := by
  rcases eq_or_ne g 2 with rfl | h2
  · norm_num [getGeneProb, specTransmit, PROBS_mut]
  · rcases eq_or_ne g 1 with rfl | h1
    · norm_num [getGeneProb, specTransmit, PROBS_mut]
    · norm_num [getGeneProb, specTransmit, PROBS_mut, h2, h1]

lemma getGeneProb_true_eq (g : ℕ) : getGeneProb g true = 1 - specTransmit g := by
  rcases eq_or_ne g 2 with rfl | h2
  · norm_num [getGeneProb, specTransmit, PROBS_mut]
  · rcases eq_or_ne g 1 with rfl | h1
    · norm_num [getGeneProb, specTransmit, PROBS_mut]
    · norm_num [getGeneProb, specTransmit, PROBS_mut, h2, h1]

lemma genesOf_le_two (n : String) (og tg : List String) : genesOf n og tg ≤ 2 := by
  unfold genesOf
  split_ifs <;> omega

lemma geneSlot_addGene_self (t : PTable) (g : ℕ) (p : ℚ) :
    geneSlot (addGene t g p) g = geneSlot t g + p := by
  unfold geneSlot addGene
  split_ifs <;> rfl

lemma geneSlot_addGene_other (t : PTable) (g g' : ℕ) (p : ℚ)
    (hg : g ≤ 2) (hg' : g' ≤ 2) (hne : g' ≠ g) :
    geneSlot (addGene t g p) g' = geneSlot t g' := by
  unfold geneSlot addGene
  split_ifs <;> first | rfl | omega

lemma geneSlot_addTrait (t : PTable) (b : Bool) (p : ℚ) (g : ℕ) :
    geneSlot (addTrait t b p) g = geneSlot t g := by
  unfold geneSlot addTrait
  split_ifs <;> rfl

lemma traitSlot_addTrait_self (t : PTable) (b : Bool) (p : ℚ) :
    traitSlot (addTrait t b p) b = traitSlot t b + p := by
  cases b <;> simp [traitSlot, addTrait]

lemma traitSlot_addTrait_other (t : PTable) (b : Bool) (p : ℚ) :
    traitSlot (addTrait t b p) (!b) = traitSlot t (!b) := by
  cases b <;> simp [traitSlot, addTrait]

lemma traitSlot_addGene (t : PTable) (g : ℕ) (p : ℚ) (b : Bool) :
    traitSlot (addGene t g p) b = traitSlot t b := by
  unfold traitSlot addGene
  split_ifs <;> rfl

lemma geneSum_addGene (t : PTable) (g : ℕ) (p : ℚ) :
    geneSum (addGene t g p) = geneSum t + p := by
  unfold geneSum addGene
  split_ifs <;> simp <;> ring

lemma geneSum_addTrait (t : PTable) (b : Bool) (p : ℚ) :
    geneSum (addTrait t b p) = geneSum t := by
  unfold geneSum addTrait
  split_ifs <;> rfl

lemma traitSum_addTrait (t : PTable) (b : Bool) (p : ℚ) :
    traitSum (addTrait t b p) = traitSum t + p := by
  unfold traitSum addTrait
  split_ifs <;> simp <;> ring

lemma traitSum_addGene (t : PTable) (g : ℕ) (p : ℚ) :
    traitSum (addGene t g p) = traitSum t := by
  unfold traitSum addGene
  split_ifs <;> rfl

/-- The effect of one accumulated hypothesis on the record of the person
with the given name. -/
def entryStep (people : List Person)
    (h : List String × List String × List String) (name : String)
    (t : PTable) : PTable :=
  addTrait (addGene t (genesOf name h.1 h.2.1)
      (jointProbability people h.1 h.2.1 h.2.2))
    (h.2.2.contains name) (jointProbability people h.1 h.2.1 h.2.2)

lemma foldl_applyHyp_eq (people : List Person)
    (L : List (List String × List String × List String)) :
    ∀ probs : List (String × PTable),
      L.foldl (applyHyp people) probs =
        probs.map fun e =>
          (e.1, L.foldl (fun t h => entryStep people h e.1 t) e.2) := by
  induction L with
  | nil => intro probs; simp
  | cons h L ih =>
    intro probs
    have step : applyHyp people probs h =
        probs.map fun e => (e.1, entryStep people h e.1 e.2) := rfl
    calc (h :: L).foldl (applyHyp people) probs
        = L.foldl (applyHyp people) (applyHyp people probs h) := rfl
      _ = (applyHyp people probs h).map
            (fun e => (e.1, L.foldl (fun t h => entryStep people h e.1 t) e.2)) :=
          ih _
      _ = probs.map fun e =>
            (e.1, (h :: L).foldl (fun t h => entryStep people h e.1 t) e.2) := by
          rw [step, List.map_map]; rfl

lemma geneSum_foldl_entryStep (people : List Person) (name : String)
    (L : List (List String × List String × List String)) :
    ∀ t : PTable,
      geneSum (L.foldl (fun t h => entryStep people h name t) t) =
        geneSum t + (L.map (hypMass people)).sum := by
  induction L with
  | nil => intro t; simp
  | cons h L ih =>
    intro t
    have : geneSum (entryStep people h name t) = geneSum t + hypMass people h := by
      unfold entryStep hypMass
      rw [geneSum_addTrait, geneSum_addGene]
    simp only [List.foldl_cons, ih, this, List.map_cons, List.sum_cons]
    ring

lemma traitSum_foldl_entryStep (people : List Person) (name : String)
    (L : List (List String × List String × List String)) :
    ∀ t : PTable,
      traitSum (L.foldl (fun t h => entryStep people h name t) t) =
        traitSum t + (L.map (hypMass people)).sum := by
  induction L with
  | nil => intro t; simp
  | cons h L ih =>
    intro t
    have : traitSum (entryStep people h name t) = traitSum t + hypMass people h := by
      unfold entryStep hypMass
      rw [traitSum_addTrait, traitSum_addGene]
    simp only [List.foldl_cons, ih, this, List.map_cons, List.sum_cons]
    ring

lemma traitSlot_foldl_entryStep (people : List Person) (name : String)
    (b : Bool) (L : List (List String × List String × List String))
    (hc : ∀ h ∈ L, h.2.2.contains name = b) :
    ∀ t : PTable,
      traitSlot (L.foldl (fun t h => entryStep people h name t) t) b =
          traitSlot t b + (L.map (hypMass people)).sum ∧
        traitSlot (L.foldl (fun t h => entryStep people h name t) t) (!b) =
          traitSlot t (!b) := by
  induction L with
  | nil => intro t; simp
  | cons h L ih =>
    intro t
    have hb : h.2.2.contains name = b := hc h (List.mem_cons_self h L)
    have hstep1 : traitSlot (entryStep people h name t) b =
        traitSlot t b + hypMass people h := by
      unfold entryStep hypMass
      rw [← hb, traitSlot_addTrait_self, traitSlot_addGene]
    have hstep2 : traitSlot (entryStep people h name t) (!b) =
        traitSlot t (!b) := by
      unfold entryStep
      rw [← hb, traitSlot_addTrait_other, traitSlot_addGene]
    have ihL := ih (fun h hm => hc h (List.mem_cons_of_mem _ hm))
      (entryStep people h name t)
    refine ⟨?_, ?_⟩
    · simp only [List.foldl_cons, ihL.1, hstep1, List.map_cons, List.sum_cons]
      ring
    · simp only [List.foldl_cons, ihL.2, hstep2]

/-! Positivity: every factor of a joint probability is positive under the
fixed tables and the nonzero mutation rate. -/

lemma PROBS_gene_pos (g : ℕ) : 0 < PROBS_gene g := by
  unfold PROBS_gene
  split_ifs <;> norm_num

lemma PROBS_trait_pos (g : ℕ) (b : Bool) : 0 < PROBS_trait g b := by
  unfold PROBS_trait
  split_ifs <;> cases b <;> norm_num

lemma getGeneProb_pos (g : ℕ) (b : Bool) : 0 < getGeneProb g b := by
  unfold getGeneProb PROBS_mut
  split_ifs <;> norm_num

lemma personGeneProb_pos (person : Person) (og tg : List String) :
    0 < personGeneProb person og tg := by
  unfold personGeneProb
  dsimp only
  split_ifs
  · exact PROBS_gene_pos _
  · exact mul_pos (getGeneProb_pos _ _) (getGeneProb_pos _ _)
  · exact add_pos (mul_pos (getGeneProb_pos _ _) (getGeneProb_pos _ _))
      (mul_pos (getGeneProb_pos _ _) (getGeneProb_pos _ _))
  · exact mul_pos (getGeneProb_pos _ _) (getGeneProb_pos _ _)

lemma jointProbability_pos (people : List Person)
    (og tg ht : List String) : 0 < jointProbability people og tg ht := by
  unfold jointProbability
  suffices key : ∀ (l : List Person) (acc : ℚ), 0 < acc →
      0 < l.foldl
        (fun acc person =>
          acc * (personGeneProb person og tg *
            PROBS_trait (genesOf person.name og tg)
              (ht.contains person.name))) acc by
    exact key people 1 one_pos
  intro l
  induction l with
  | nil => intro acc hacc; exact hacc
  | cons q l ih =>
    intro acc hacc
    exact ih _ (mul_pos hacc
      (mul_pos (personGeneProb_pos _ _ _) (PROBS_trait_pos _ _)))

/-! Structure of the enumerated hypothesis space. -/

lemma mem_powerset_iff (s l : List String) : l ∈ powerset s ↔ l.Sublist s := by
  unfold powerset
  simp only [List.mem_flatMap, List.mem_range, List.mem_sublistsLen]
  constructor
  · rintro ⟨r, _, hsub, _⟩
    exact hsub
  · intro hsub
    exact ⟨l.length, Nat.lt_succ_of_le hsub.length_le, hsub, rfl⟩

lemma mem_hypotheses_iff (people : List Person)
    (og tg ht : List String) :
    (og, tg, ht) ∈ hypotheses people ↔
      ht.Sublist (people.map Person.name) ∧
        consistentTraits people ht = true ∧
        og.Sublist (people.map Person.name) ∧
        tg.Sublist ((people.map Person.name).filter fun n => !og.contains n) := by
  unfold hypotheses
  simp only [List.mem_flatMap, List.mem_filter, List.mem_map,
    mem_powerset_iff, Prod.mk.injEq]
  constructor
  · rintro ⟨ht0, ⟨hht, hcons⟩, og0, hog, tg0, htg, hog0, htg0, hht0⟩
    subst hog0; subst htg0; subst hht0
    exact ⟨hht, hcons, hog, htg⟩
  · rintro ⟨hht, hcons, hog, htg⟩
    exact ⟨ht, ⟨hht, hcons⟩, og, hog, tg, htg, rfl, rfl, rfl⟩

/-- The trait-true subset read off directly from the observations: every
person observed true, nobody else. -/
def observedTrue (people : List Person) : List String :=
  (people.filter fun p => p.trait == some true).map Person.name

lemma observedTrue_sublist (people : List Person) :
    (observedTrue people).Sublist (people.map Person.name) :=
  (List.filter_sublist people).map Person.name

lemma observedTrue_consistent (people : List Person)
    (hd : (people.map Person.name).Nodup) :
    consistentTraits people (observedTrue people) = true := by
  unfold consistentTraits
  rw [List.all_eq_true]
  intro q hq
  cases htr : q.trait with
  | none => simp
  | some b =>
    simp only
    rw [beq_iff_eq]
    cases b with
    | true =>
      have : q.name ∈ observedTrue people := by
        unfold observedTrue
        exact List.mem_map_of_mem Person.name
          (List.mem_filter.mpr ⟨hq, by rw [htr]; rfl⟩)
      simpa using this
    | false =>
      have : q.name ∉ observedTrue people := by
        intro hmem
        unfold observedTrue at hmem
        rcases List.mem_map.mp hmem with ⟨p, hp, hname⟩
        rcases List.mem_filter.mp hp with ⟨hpmem, hptrait⟩
        have hpeq : p = q :=
          List.inj_on_of_nodup_map hd hpmem hq hname
        rw [hpeq] at hptrait
        rw [htr] at hptrait
        simp at hptrait
      simpa using this

lemma base_hyp_mem (people : List Person)
    (hd : (people.map Person.name).Nodup) :
    ([], [], observedTrue people) ∈ hypotheses people := by
  rw [mem_hypotheses_iff]
  exact ⟨observedTrue_sublist people, observedTrue_consistent people hd,
    List.nil_sublist _, List.nil_sublist _⟩

lemma totalMass_pos (people : List Person)
    (hd : (people.map Person.name).Nodup) : 0 < totalMass people := by
  unfold totalMass
  have hne : hypotheses people ≠ [] :=
    List.ne_nil_of_mem (base_hyp_mem people hd)
  apply List.sum_pos
  · intro x hx
    rcases List.mem_map.mp hx with ⟨h, _, rfl⟩
    exact jointProbability_pos people h.1 h.2.1 h.2.2
  · simpa using hne

/-! The successful path of the normalizer, and association-list lookups. -/

/-- The record normalizePerson produces when both totals are nonzero. -/
def normEntry (e : String × PTable) : String × PTable :=
  (e.1, ⟨e.2.gene0 / geneSum e.2, e.2.gene1 / geneSum e.2,
         e.2.gene2 / geneSum e.2,
         e.2.traitT / traitSum e.2, e.2.traitF / traitSum e.2⟩)

lemma normalizePerson_ok (e : String × PTable)
    (hg : geneSum e.2 ≠ 0) (ht : traitSum e.2 ≠ 0) :
    normalizePerson e = .ok (normEntry e) := by
  simp [normalizePerson, normEntry, hg, ht]

lemma normalize_ok (probs : List (String × PTable))
    (hpos : ∀ e ∈ probs, geneSum e.2 ≠ 0 ∧ traitSum e.2 ≠ 0) :
    normalize probs = .ok (probs.map normEntry) := by
  induction probs with
  | nil => rfl
  | cons a rest ih =>
    have ha := hpos a (List.mem_cons_self a rest)
    have hr := ih fun e he => hpos e (List.mem_cons_of_mem _ he)
    unfold normalize
    rw [normalizePerson_ok a ha.1 ha.2, hr]
    rfl

lemma lookup_map_name {β : Type} (g : Person → β) (people : List Person)
    (hd : (people.map Person.name).Nodup) (x : Person) (hx : x ∈ people) :
    (people.map fun y => (y.name, g y)).lookup x.name = some (g x) := by
  induction people with
  | nil => cases hx
  | cons y rest ih =>
    rw [List.map_cons] at hd ⊢
    have hd' := List.nodup_cons.mp hd
    rcases List.mem_cons.mp hx with rfl | hmem
    · simp [List.lookup]
    · have hne : (x.name == y.name) = false := by
        rw [beq_eq_false_iff_ne]
        intro he
        exact hd'.1 (he ▸ List.mem_map_of_mem Person.name hmem)
      simp only [List.lookup, hne]
      exact ih hd'.2 hmem

lemma contains_eq_of_consistent (people : List Person) (ht : List String)
    (x : Person) (b : Bool) (hx : x ∈ people) (hb : x.trait = some b)
    (hc : consistentTraits people ht = true) :
    ht.contains x.name = b := by
  unfold consistentTraits at hc
  rw [List.all_eq_true] at hc
  have hq := hc x hx
  rw [hb] at hq
  simpa using hq

/-! Claim theorems. -/

/-- Claim C1: for a non-founder (both parent identifiers recorded), the
gene probability is composed from two independent per-parent transmission
events, where a parent with 2 copies transmits with probability 1 - 0.01,
a parent with 1 copy with probability 0.5, a parent with 0 copies with
probability 0.01, and the child counts 2, 1, 0 arise as
transmit-transmit, transmit-withhold plus withhold-transmit, and
withhold-withhold respectively. -/
theorem c1_nonfounder_transmission (person : Person) (m f : String)
    (og tg : List String)
    (hm : person.mother = some m) (hf : person.father = some f) :
    personGeneProb person og tg =
      (if genesOf person.name og tg = 2 then
          specTransmit (genesOf m og tg) * specTransmit (genesOf f og tg)
       else if genesOf person.name og tg = 1 then
          specTransmit (genesOf m og tg) *
              (1 - specTransmit (genesOf f og tg)) +
            (1 - specTransmit (genesOf m og tg)) *
              specTransmit (genesOf f og tg)
       else
          (1 - specTransmit (genesOf m og tg)) *
            (1 - specTransmit (genesOf f og tg))) := by
  unfold personGeneProb
  rw [hm, hf]
  simp only [Option.some_ne_none, false_and, if_false, genesOfOpt,
    getGeneProb_false_eq, getGeneProb_true_eq]

/-- Claim C1 witness: the theorem applied to a concrete non-founder. -/
theorem c1_nonfounder_transmission_w :
    personGeneProb ⟨"c", some "m", some "f", none⟩ ["m"] [] =
      (if genesOf "c" ["m"] [] = 2 then
          specTransmit (genesOf "m" ["m"] []) * specTransmit (genesOf "f" ["m"] [])
       else if genesOf "c" ["m"] [] = 1 then
          specTransmit (genesOf "m" ["m"] []) *
              (1 - specTransmit (genesOf "f" ["m"] [])) +
            (1 - specTransmit (genesOf "m" ["m"] [])) *
              specTransmit (genesOf "f" ["m"] [])
       else
          (1 - specTransmit (genesOf "m" ["m"] [])) *
            (1 - specTransmit (genesOf "f" ["m"] []))) :=
  c1_nonfounder_transmission ⟨"c", some "m", some "f", none⟩ "m" "f"
    ["m"] [] rfl rfl

/-- Claim C5: for a founder (both parent references absent), the gene
probability is the fixed prior table value: 0.01 for 2 copies, 0.03 for
1 copy, 0.96 for 0 copies. -/
theorem c5_founder_prior (person : Person) (og tg : List String)
    (hm : person.mother = none) (hf : person.father = none) :
    personGeneProb person og tg =
      (if genesOf person.name og tg = 2 then (1/100 : ℚ)
       else if genesOf person.name og tg = 1 then 3/100
       else 96/100) := by
  unfold personGeneProb
  rw [hm, hf]
  simp [PROBS_gene]

/-- Claim C5 witness: the theorem applied to a concrete founder. -/
theorem c5_founder_prior_w :
    personGeneProb ⟨"a", none, none, none⟩ ["a"] [] =
      (if genesOf "a" ["a"] [] = 2 then (1/100 : ℚ)
       else if genesOf "a" ["a"] [] = 1 then 3/100
       else 96/100) :=
  c5_founder_prior ⟨"a", none, none, none⟩ ["a"] [] rfl rfl

/-- Claim C4 counterexample: with a population whose only member records
parents "gm" and "gf" that resolve to nobody, joint_probability does not
fail; it returns the probability 0.99 * 0.99 * 0.99 obtained by treating
both dangling parents as zero-copy parents. -/
theorem c4_counterexample :
    jointProbability [⟨"kid", some "gm", some "gf", none⟩] [] [] [] =
      970299/1000000 := by
  norm_num [jointProbability, personGeneProb, genesOfOpt, genesOf,
    getGeneProb, PROBS_trait, PROBS_mut, List.foldl]
  intro h
  simp at h

/-- Claim C4 amended: a dangling mother or father reference is silently
treated as a parent with 0 gene copies (it can never be in one_gene or
two_genes, which hold only population names), and a probability is
returned. -/
theorem c4_dangling_as_zero_copy (people : List Person) (person : Person)
    (m f : String) (og tg ht : List String)
    (hm : person.mother = some m) (hf : person.father = some f)
    (hdm : m ∉ people.map Person.name) (hdf : f ∉ people.map Person.name)
    (hh : (og, tg, ht) ∈ hypotheses people) :
    personGeneProb person og tg =
      (if genesOf person.name og tg = 2 then (1/100 : ℚ) * (1/100)
       else if genesOf person.name og tg = 1 then
         (1/100) * (99/100) + (99/100) * (1/100)
       else (99/100) * (99/100)) := by
  obtain ⟨-, -, hog, htg⟩ := (mem_hypotheses_iff people og tg ht).mp hh
  have hsub : ∀ n : String, n ∉ people.map Person.name →
      genesOf n og tg = 0 := by
    intro n hn
    have h1 : n ∉ og := fun hmem => hn (hog.subset hmem)
    have h2 : n ∉ tg := fun hmem =>
      hn (List.mem_of_mem_filter (htg.subset hmem))
    unfold genesOf
    rw [if_neg, if_neg]
    · simpa using h1
    · simpa using h2
  rw [c1_nonfounder_transmission person m f og tg hm hf,
    hsub m hdm, hsub f hdf]
  norm_num [specTransmit]

/-- Claim C4 amended witness: the theorem applied to a concrete dangling
population and a concrete enumerated hypothesis. -/
theorem c4_dangling_as_zero_copy_w :
    personGeneProb ⟨"kid", some "gm", some "gf", none⟩ [] [] =
      (if genesOf "kid" [] [] = 2 then (1/100 : ℚ) * (1/100)
       else if genesOf "kid" [] [] = 1 then
         (1/100) * (99/100) + (99/100) * (1/100)
       else (99/100) * (99/100)) :=
  c4_dangling_as_zero_copy [⟨"kid", some "gm", some "gf", none⟩]
    ⟨"kid", some "gm", some "gf", none⟩ "gm" "gf" [] [] []
    rfl rfl (by decide) (by decide) (by decide)

/-- Claim C8 counterexample: for the empty population the enumeration does
not produce zero (trait subset, gene partition) pairs. -/
theorem c8_counterexample :
    (hypotheses ([] : List Person)).length ≠ 0 := by
  decide

/-- Claim C8 amended: for the empty population the enumeration produces
exactly one hypothesis, the empty assignment (empty trait subset and empty
gene partition), and accumulating it updates nothing because the
accumulator has no entries. -/
theorem c8_empty_population :
    hypotheses ([] : List Person) = [([], [], [])] ∧
      accumulate ([] : List Person) = [] := by
  decide

/-- Claim C9 counterexample: the loader succeeds on a record whose trait
field is the unrecognized string "maybe" and silently maps it to the
unobserved state. -/
theorem c9_counterexample :
    load_data [("x", "", "", "maybe")] = [⟨"x", none, none, none⟩] := by
  decide

/-- Claim C9 amended: the trait decoding maps "1" to observed-true, "0"
to observed-false, and every other string, recognized or not, silently to
unobserved; it never fails. -/
theorem c9_trait_decoding (s : String) (h1 : s ≠ "1") (h0 : s ≠ "0") :
    parseTrait "1" = some true ∧ parseTrait "0" = some false ∧
      parseTrait s = none := by
  refine ⟨rfl, rfl, ?_⟩
  simp [parseTrait, h1, h0]

/-- Claim C9 amended witness: the theorem applied to the concrete
unrecognized encoding "maybe". -/
theorem c9_trait_decoding_w :
    parseTrait "1" = some true ∧ parseTrait "0" = some false ∧
      parseTrait "maybe" = none :=
  c9_trait_decoding "maybe" (by decide) (by decide)

/-- Claim C7: if some individual's accumulated gene weights or trait
weights total zero, normalize signals an error (the Python division by a
zero total raises ZeroDivisionError) instead of producing values. -/
theorem c7_normalize_zero_total (probs : List (String × PTable))
    (e : String × PTable) (he : e ∈ probs)
    (hz : geneSum e.2 = 0 ∨ traitSum e.2 = 0) :
    normalize probs = .error () := by
  induction probs with
  | nil => cases he
  | cons a rest ih =>
    rcases List.mem_cons.mp he with rfl | hmem
    · have herr : normalizePerson e = .error () := by
        unfold normalizePerson
        rcases hz with h | h
        · simp [h]
        · by_cases hg : geneSum e.2 = 0 <;> simp [hg, h]
      unfold normalize
      rw [herr]
    · have hrest := ih hmem
      unfold normalize
      rw [hrest]
      cases hnp : normalizePerson a with
      | error u => rfl
      | ok r => rfl

/-- Claim C7 witness: the theorem applied to an accumulator whose only
entry still has all-zero weights. -/
theorem c7_normalize_zero_total_w :
    normalize [("a", zeroTable)] = .error () :=
  c7_normalize_zero_total [("a", zeroTable)] ("a", zeroTable)
    (List.mem_cons_self _ _) (Or.inl (by norm_num [geneSum, zeroTable]))

/-- Claim C10: one update call with joint probability p preserves the
accumulator's length and, at every position, keeps the name, adds p to
exactly the gene slot selected by the assigned gene count and to exactly
the trait slot selected by the assigned trait value, leaves every other
slot unchanged, and raises both the gene total and the trait total by
exactly p. -/
theorem c10_update_frame (probs : List (String × PTable))
    (og tg ht : List String) (p : ℚ) (i : ℕ) (hi : i < probs.length) :
    (update probs og tg ht p).length = probs.length ∧
    ∃ e0 e, probs[i]? = some e0 ∧ (update probs og tg ht p)[i]? = some e ∧
      e.1 = e0.1 ∧
      geneSlot e.2 (genesOf e0.1 og tg) =
        geneSlot e0.2 (genesOf e0.1 og tg) + p ∧
      (∀ g : ℕ, g ≤ 2 → g ≠ genesOf e0.1 og tg →
        geneSlot e.2 g = geneSlot e0.2 g) ∧
      traitSlot e.2 (ht.contains e0.1) =
        traitSlot e0.2 (ht.contains e0.1) + p ∧
      traitSlot e.2 (!(ht.contains e0.1)) =
        traitSlot e0.2 (!(ht.contains e0.1)) ∧
      geneSum e.2 = geneSum e0.2 + p ∧
      traitSum e.2 = traitSum e0.2 + p := by
  refine ⟨by simp [update], probs.get ⟨i, hi⟩,
    ((probs.get ⟨i, hi⟩).1,
      addTrait (addGene (probs.get ⟨i, hi⟩).2
          (genesOf (probs.get ⟨i, hi⟩).1 og tg) p)
        (ht.contains (probs.get ⟨i, hi⟩).1) p),
    List.getElem?_eq_getElem hi, ?_, rfl, ?_, ?_, ?_, ?_, ?_, ?_⟩
  · unfold update
    rw [List.getElem?_map, List.getElem?_eq_getElem hi]
    rfl
  · rw [geneSlot_addTrait, geneSlot_addGene_self]
  · intro g hg hne
    rw [geneSlot_addTrait,
      geneSlot_addGene_other _ _ _ _ (genesOf_le_two _ _ _) hg hne]
  · rw [traitSlot_addTrait_self, traitSlot_addGene]
  · rw [traitSlot_addTrait_other, traitSlot_addGene]
  · rw [geneSum_addTrait, geneSum_addGene]
  · rw [traitSum_addTrait, traitSum_addGene]

/-- Claim C10 witness: the theorem applied to a concrete one-entry
accumulator. -/
theorem c10_update_frame_w :
    (update [("a", zeroTable)] ["a"] [] [] (1/2)).length =
      [("a", zeroTable)].length ∧
    ∃ e0 e, [("a", zeroTable)][0]? = some e0 ∧
      (update [("a", zeroTable)] ["a"] [] [] (1/2))[0]? = some e ∧
      e.1 = e0.1 ∧
      geneSlot e.2 (genesOf e0.1 ["a"] []) =
        geneSlot e0.2 (genesOf e0.1 ["a"] []) + 1/2 ∧
      (∀ g : ℕ, g ≤ 2 → g ≠ genesOf e0.1 ["a"] [] →
        geneSlot e.2 g = geneSlot e0.2 g) ∧
      traitSlot e.2 (List.contains [] e0.1) =
        traitSlot e0.2 (List.contains [] e0.1) + 1/2 ∧
      traitSlot e.2 (!(List.contains [] e0.1)) =
        traitSlot e0.2 (!(List.contains [] e0.1)) ∧
      geneSum e.2 = geneSum e0.2 + 1/2 ∧
      traitSum e.2 = traitSum e0.2 + 1/2 :=
  c10_update_frame [("a", zeroTable)] ["a"] [] [] (1/2) 0 (by decide)

/-- Claim C2: after the whole enumeration has been accumulated, every
individual's three gene weights sum to the same value as their two trait
weights, and that common value is the total probability mass of all
evidence-consistent hypotheses, identical across individuals. -/
theorem c2_accumulated_sums (people : List Person) (e : String × PTable)
    (he : e ∈ accumulate people) :
    geneSum e.2 = totalMass people ∧ traitSum e.2 = totalMass people := by
  unfold accumulate at he
  rw [foldl_applyHyp_eq] at he
  rcases List.mem_map.mp he with ⟨e0, he0, rfl⟩
  have hz : e0.2 = zeroTable := by
    unfold initProbs at he0
    rcases List.mem_map.mp he0 with ⟨q, _, rfl⟩
    rfl
  constructor
  · rw [geneSum_foldl_entryStep, hz]
    simp [zeroTable, geneSum, totalMass]
  · rw [traitSum_foldl_entryStep, hz]
    simp [zeroTable, traitSum, totalMass]

/-- Claim C2 witness: the theorem applied to the single-founder
population's accumulated entry. -/
theorem c2_accumulated_sums_w :
    geneSum ("a", (⟨24/25, 3/100, 1/100, 329/10000, 9671/10000⟩ : PTable)).2 =
        totalMass [⟨"a", none, none, none⟩] ∧
      traitSum ("a", (⟨24/25, 3/100, 1/100, 329/10000, 9671/10000⟩ : PTable)).2 =
        totalMass [⟨"a", none, none, none⟩] :=
  c2_accumulated_sums [⟨"a", none, none, none⟩] _ (by
    have hh : hypotheses [(⟨"a", none, none, none⟩ : Person)] =
        [([], [], []), ([], ["a"], []), (["a"], [], []),
         ([], [], ["a"]), ([], ["a"], ["a"]), (["a"], [], ["a"])] := by
      decide
    unfold accumulate initProbs
    rw [hh]
    norm_num [applyHyp, update, jointProbability, personGeneProb,
      genesOf, genesOfOpt, getGeneProb, PROBS_gene, PROBS_trait, PROBS_mut,
      addGene, addTrait, List.foldl, zeroTable])

lemma traitSlot_normEntry (e : String × PTable) (b : Bool) :
    traitSlot (normEntry e).2 b = traitSlot e.2 b / traitSum e.2 := by
  cases b <;> rfl

/-- Claim C3: for any individual with an observed trait in a population
with distinct names, the pipeline succeeds and the final normalized trait
distribution gives exactly 1 to the observed value and exactly 0 to the
other value. -/
theorem c3_observed_trait_normalized (people : List Person) (x : Person)
    (b : Bool) (hd : (people.map Person.name).Nodup) (hx : x ∈ people)
    (hb : x.trait = some b) :
    ∃ res t, finalDistributions people = Except.ok res ∧
      res.lookup x.name = some t ∧ traitSlot t b = 1 ∧ traitSlot t (!b) = 0 := by
  have hSne : totalMass people ≠ 0 := ne_of_gt (totalMass_pos people hd)
  have hacc : accumulate people = people.map fun y =>
      (y.name, (hypotheses people).foldl
        (fun t h => entryStep people h y.name t) zeroTable) := by
    unfold accumulate initProbs
    rw [foldl_applyHyp_eq, List.map_map]
    rfl
  have hg : ∀ y : Person, geneSum ((hypotheses people).foldl
      (fun t h => entryStep people h y.name t) zeroTable) = totalMass people := by
    intro y
    rw [geneSum_foldl_entryStep]
    simp [zeroTable, geneSum, totalMass]
  have htt : ∀ y : Person, traitSum ((hypotheses people).foldl
      (fun t h => entryStep people h y.name t) zeroTable) = totalMass people := by
    intro y
    rw [traitSum_foldl_entryStep]
    simp [zeroTable, traitSum, totalMass]
  have hok : normalize (accumulate people) =
      .ok ((accumulate people).map normEntry) := by
    apply normalize_ok
    intro e he
    rw [hacc] at he
    rcases List.mem_map.mp he with ⟨y, _, rfl⟩
    exact ⟨by rw [hg y]; exact hSne, by rw [htt y]; exact hSne⟩
  have hres : (accumulate people).map normEntry =
      people.map fun y => (y.name,
        (normEntry (y.name, (hypotheses people).foldl
          (fun t h => entryStep people h y.name t) zeroTable)).2) := by
    rw [hacc, List.map_map]
    rfl
  have hcons : ∀ h ∈ hypotheses people, h.2.2.contains x.name = b := by
    intro h hh
    obtain ⟨og, tg, ht⟩ := h
    exact contains_eq_of_consistent people ht x b hx hb
      ((mem_hypotheses_iff people og tg ht).mp hh).2.1
  have hslot := traitSlot_foldl_entryStep people x.name b
    (hypotheses people) hcons zeroTable
  have h1 : traitSlot ((hypotheses people).foldl
      (fun t h => entryStep people h x.name t) zeroTable) b = totalMass people := by
    rw [hslot.1]
    cases b <;> simp [zeroTable, traitSlot, totalMass]
  have h2 : traitSlot ((hypotheses people).foldl
      (fun t h => entryStep people h x.name t) zeroTable) (!b) = 0 := by
    rw [hslot.2]
    cases b <;> rfl
  refine ⟨(accumulate people).map normEntry,
    (normEntry (x.name, (hypotheses people).foldl
      (fun t h => entryStep people h x.name t) zeroTable)).2, hok, ?_, ?_, ?_⟩
  · rw [hres]
    exact lookup_map_name _ people hd x hx
  · rw [traitSlot_normEntry]
    dsimp only
    rw [h1, htt x]
    exact div_self hSne
  · rw [traitSlot_normEntry]
    dsimp only
    rw [h2]
    exact zero_div _

/-- Claim C3 witness: the theorem applied to a single founder observed to
have the trait. -/
theorem c3_observed_trait_normalized_w :
    ∃ res t, finalDistributions [⟨"a", none, none, some true⟩] =
        Except.ok res ∧
      res.lookup "a" = some t ∧ traitSlot t true = 1 ∧
      traitSlot t (!true) = 0 :=
  c3_observed_trait_normalized [⟨"a", none, none, some true⟩]
    ⟨"a", none, none, some true⟩ true (by decide) (by decide) rfl

/-- Claim C6: for a single founder with unobserved trait, the full
pipeline returns the prior table as the normalized gene distribution:
0.96 for 0 copies, 0.03 for 1 copy, 0.01 for 2 copies. -/
theorem c6_single_founder_posterior :
    ∃ tT tF : ℚ, finalDistributions [⟨"a", none, none, none⟩] =
      Except.ok [("a", ⟨96/100, 3/100, 1/100, tT, tF⟩)] := by
  refine ⟨329/10000, 9671/10000, ?_⟩
  have hh : hypotheses [(⟨"a", none, none, none⟩ : Person)] =
      [([], [], []), ([], ["a"], []), (["a"], [], []),
       ([], [], ["a"]), ([], ["a"], ["a"]), (["a"], [], ["a"])] := by
    decide
  unfold finalDistributions accumulate initProbs
  rw [hh]
  norm_num [applyHyp, update, jointProbability, personGeneProb, genesOf,
    genesOfOpt, getGeneProb, PROBS_gene, PROBS_trait, PROBS_mut, addGene,
    addTrait, List.foldl, normalize, normalizePerson, geneSum, traitSum,
    zeroTable]

end Heredity
